import Mathlib

/-!
Shallow embedding of the portunus password manager (main.go) and proofs
about its vault operations, JSON persistence and password generation.

Strings from Go are modelled as Lean `String`s (text); the backing file's
content is a `List Char`.  Randomness and I/O outcomes are passed in as
explicit parameters.
-/

namespace Portunus

/-- The error values declared with `errors.New` in main.go; `ioError` stands
for any other propagated I/O failure. -/
inductive VErr where
  | vaultExists
  | vaultNotExists
  | vaultInvalid
  | noSuchValue
  | ioError
deriving DecidableEq, Repr

instance {ε α : Type} [DecidableEq ε] [DecidableEq α] : DecidableEq (Except ε α) := fun a b =>
  match a, b with
  | .error e1, .error e2 =>
    if h : e1 = e2 then isTrue (by rw [h]) else isFalse (fun hh => h (Except.error.inj hh))
  | .ok v1, .ok v2 =>
    if h : v1 = v2 then isTrue (by rw [h]) else isFalse (fun hh => h (Except.ok.inj hh))
  | .error _, .ok _ => isFalse (fun hh => Except.noConfusion hh)
  | .ok _, .error _ => isFalse (fun hh => Except.noConfusion hh)

/-- The in-memory mapping `vlt map[string]string`, modelled as an association
list from names to values.  A Go map holds at most one binding per key; the
operations below preserve key-uniqueness (`NodupKeys`). -/
abbrev Vault := List (String × String)

/-- Go map read `m[name]`: `none` plays the role of `ok == false`. -/
def mapGet (m : Vault) (k : String) : Option String :=
  match m with
  | [] => none
  | (k', v) :: rest => if k' = k then some v else mapGet rest k

/-- Go map write `m[name] = value`: overwrite the binding if the key is
present, otherwise add a new binding. -/
def mapSet (m : Vault) (k v : String) : Vault :=
  match m with
  | [] => [(k, v)]
  | (k', v') :: rest => if k' = k then (k, v) :: rest else (k', v') :: mapSet rest k v

/-- Go `delete(m, name)`: afterwards the key has no binding.  A Go map holds
at most one pair per key; on the association list we drop every pair with
that key. -/
def mapDelete (m : Vault) (k : String) : Vault :=
  m.filter (fun kv => kv.1 != k)

/-- The key list of the mapping (Go map iteration order is arbitrary; this
model lists keys in storage order and all consumers sort). -/
def mapKeys (m : Vault) : List String :=
  m.map Prod.fst

/-- Invariant of the Go map representation: no key occurs twice. -/
def NodupKeys (m : Vault) : Prop :=
  (mapKeys m).Nodup

/-- Lexicographic comparison of character lists.  Go compares strings byte
by byte; on text, UTF-8 byte order coincides with code-point order, which
this computes. -/
def charListLtb : List Char → List Char → Bool
  | [], [] => false
  | [], _ :: _ => true
  | _ :: _, [] => false
  | a :: as, b :: bs => if a < b then true else if b < a then false else charListLtb as bs

/-- Go `a < b` on strings. -/
def strLtb (a b : String) : Bool :=
  charListLtb a.data b.data

/-- Go `a <= b` on strings — the order `sort.Strings` sorts by. -/
def strLeb (a b : String) : Bool :=
  ! strLtb b a

/-- Go `lst`: collect the key list and `sort.Strings` it (ascending). -/
def lst (m : Vault) : List String :=
  List.insertionSort (fun a b => strLeb a b = true) (mapKeys m)

/-- Go `set`: store the externally supplied line of text verbatim under the
name (the line itself is a parameter; `readPassword` is an excluded
collaborator). -/
def set (m : Vault) (name value : String) : Vault :=
  mapSet m name value

/-- Go `get`: look the name up; absent names fail with `errVaultNoSuchValue`.
A pure read: the mapping is not touched. -/
def get (m : Vault) (name : String) : Except VErr String :=
  match mapGet m name with
  | none => .error .noSuchValue
  | some pswd => .ok pswd

/-- Go `rem`: check presence first (absent names fail with
`errVaultNoSuchValue`, leaving the mapping as it was), then delete. -/
def rem (m : Vault) (name : String) : Option VErr × Vault :=
  match mapGet m name with
  | none => (some .noSuchValue, m)
  | some _ => (none, mapDelete m name)

/-! ### Password generation (`generatePassword`) -/

/-- The URL-safe base64 alphabet used by `base64.RawURLEncoding`. -/
def b64Alphabet : List Char :=
  "ABCDEFGHIJKLMNOPQRSTUVWXYZabcdefghijklmnopqrstuvwxyz0123456789-_".data

def b64Char (n : Nat) : Char :=
  b64Alphabet.getD n 'A'

/-- Go `base64.RawURLEncoding.EncodeToString`: each 3-byte group becomes 4
alphabet characters; a 2-byte tail becomes 3 characters, a 1-byte tail 2
characters; no padding. -/
def rawUrlEncode : List Nat → List Char
  | b1 :: b2 :: b3 :: rest =>
      b64Char (b1 / 4) :: b64Char (b1 % 4 * 16 + b2 / 16) ::
      b64Char (b2 % 16 * 4 + b3 / 64) :: b64Char (b3 % 64) :: rawUrlEncode rest
  | [b1, b2] =>
      [b64Char (b1 / 4), b64Char (b1 % 4 * 16 + b2 / 16), b64Char (b2 % 16 * 4)]
  | [b1] => [b64Char (b1 / 4), b64Char (b1 % 4 * 16)]
  | [] => []

/-- The character set `[A-Za-z0-9_-]` of generated passwords. -/
def isUrlSafeB64Char (c : Char) : Bool :=
  ('A' ≤ c && c ≤ 'Z') || ('a' ≤ c && c ≤ 'z') || ('0' ≤ c && c ≤ '9') ||
    c = '-' || c = '_'

set_option linter.unusedVariables false in
/-- Go `generatePassword`: `rand.Read(pswd)` fills the zero-initialised 12-byte
buffer and returns an error which the code DISCARDS (`rand.Read(pswd)` with
both results ignored); the buffer — `buf` holds its contents after the call —
is base64-encoded regardless of `readFailed`. -/
def generatePassword (buf : List Nat) (readFailed : Bool) : String :=
  String.mk (rawUrlEncode buf)

/-- Go `new`: store a freshly generated password under the name; the entropy
bytes come from the environment. -/
def new (m : Vault) (name : String) (buf : List Nat) (readFailed : Bool) : Vault :=
  mapSet m name (generatePassword buf readFailed)

/-! ### JSON (`encoding/json` on `map[string]string`)

`json.Marshal` and `json.Unmarshal` are the standard library routines the
vault persistence calls; they are embedded here at the depth the claims
need: a full scanner/decoder for JSON values and Go's string escaping. -/

/-- JSON values as recognised by `encoding/json`'s scanner.  Number lexemes
are validated syntactically but their numeric value is irrelevant here. -/
inductive JsonValue where
  | null
  | bool (b : Bool)
  | num
  | str (s : String)
  | arr (elems : List JsonValue)
  | obj (members : List (String × JsonValue))

/-- The whitespace characters `json.isSpace` skips. -/
def isJsonSpace (c : Char) : Bool :=
  c == ' ' || c == '\t' || c == '\n' || c == '\r'

def skipWs (s : List Char) : List Char :=
  s.dropWhile isJsonSpace

/-- Hexadecimal digit value (`getu4` accepts both cases). -/
def hexVal (c : Char) : Option Nat :=
  if '0' ≤ c ∧ c ≤ '9' then some (c.toNat - '0'.toNat)
  else if 'a' ≤ c ∧ c ≤ 'f' then some (c.toNat - 'a'.toNat + 10)
  else if 'A' ≤ c ∧ c ≤ 'F' then some (c.toNat - 'A'.toNat + 10)
  else none

/-- After a `\uXXXX` escape whose value `n` is a UTF-16 surrogate, Go's
`unquote` tries to combine it with an immediately following `\uXXXX` low
surrogate; otherwise it yields U+FFFD and re-processes the following input
on its own.  Returns the decoded character and the remaining input. -/
def decodeSurrogate (n : Nat) (rest : List Char) : Char × List Char :=
  match rest with
  | '\\' :: 'u' :: g1 :: g2 :: g3 :: g4 :: rest2 =>
    match hexVal g1, hexVal g2, hexVal g3, hexVal g4 with
    | some a2, some b2, some c2, some d2 =>
      let n2 := ((a2 * 16 + b2) * 16 + c2) * 16 + d2
      if n < 0xDC00 ∧ 0xDC00 ≤ n2 ∧ n2 < 0xE000 then
        (Char.ofNat (0x10000 + (n - 0xD800) * 0x400 + (n2 - 0xDC00)), rest2)
      else (Char.ofNat 0xFFFD, rest)
    | _, _, _, _ => (Char.ofNat 0xFFFD, rest)
  | _ => (Char.ofNat 0xFFFD, rest)

/-- Decode the body of a JSON string literal (after the opening quote), per
`encoding/json`'s scanner plus `unquote`: returns the decoded characters and
the input remaining after the closing quote.  Raw control characters are a
syntax error; `\uXXXX` escapes decode UTF-16 (see `decodeSurrogate`).
The recursion is fuelled (structurally) — every step consumes at least one
input character, so `parseStringBody` below, which supplies the input length
as fuel, behaves exactly like the unfuelled recursion. -/
def parseStringFuel : Nat → List Char → Option (List Char × List Char)
  | 0, _ => none
  | Nat.succ fuel, input =>
    match input with
    | [] => none
    | '"' :: rest => some ([], rest)
    | '\\' :: 'u' :: h1 :: h2 :: h3 :: h4 :: rest =>
      match hexVal h1, hexVal h2, hexVal h3, hexVal h4 with
      | some a, some b, some c, some d =>
        let n := ((a * 16 + b) * 16 + c) * 16 + d
        if n < 0xD800 ∨ 0xE000 ≤ n then
          (parseStringFuel fuel rest).map (fun p => (Char.ofNat n :: p.1, p.2))
        else
          (parseStringFuel fuel (decodeSurrogate n rest).2).map
            (fun p => ((decodeSurrogate n rest).1 :: p.1, p.2))
      | _, _, _, _ => none
    | '\\' :: c :: rest =>
      let dec : Option Char :=
        if c = '"' then some '"'
        else if c = '\\' then some '\\'
        else if c = '/' then some '/'
        else if c = 'b' then some (Char.ofNat 8)
        else if c = 'f' then some (Char.ofNat 12)
        else if c = 'n' then some '\n'
        else if c = 'r' then some '\r'
        else if c = 't' then some '\t'
        else none
      match dec with
      | some d => (parseStringFuel fuel rest).map (fun p => (d :: p.1, p.2))
      | none => none
    | ['\\'] => none
    | c :: rest =>
      if c.toNat < 0x20 then none
      else (parseStringFuel fuel rest).map (fun p => (c :: p.1, p.2))

/-- String-literal body decoding, with the input length as (always
sufficient) fuel. -/
def parseStringBody (s : List Char) : Option (List Char × List Char) :=
  parseStringFuel s.length s

def isDigit (c : Char) : Bool :=
  '0' ≤ c && c ≤ '9'

/-- The integer part of a JSON number: `0`, or a nonzero digit followed by
digits. -/
def parseIntPart : List Char → Option (List Char)
  | '0' :: rest => some rest
  | c :: rest => if isDigit c then some (rest.dropWhile isDigit) else none
  | [] => none

/-- Optional fraction part `. digits`. -/
def parseFracPart (s : List Char) : Option (List Char) :=
  match s with
  | '.' :: rest =>
    match rest with
    | c :: _ => if isDigit c then some (rest.dropWhile isDigit) else none
    | [] => none
  | _ => some s

/-- The digits of an exponent, with optional sign. -/
def parseExpDigits (s : List Char) : Option (List Char) :=
  let t := match s with
    | '+' :: r => r
    | '-' :: r => r
    | r => r
  match t with
  | c :: _ => if isDigit c then some (t.dropWhile isDigit) else none
  | [] => none

/-- Optional exponent part `[eE] [+-]? digits`. -/
def parseExpPart : List Char → Option (List Char)
  | 'e' :: rest => parseExpDigits rest
  | 'E' :: rest => parseExpDigits rest
  | s => some s

/-- JSON number grammar `-? (0 | [1-9][0-9]*) frac? exp?`; returns the
remaining input after the lexeme. -/
def parseNumber (s : List Char) : Option (List Char) :=
  let t := match s with
    | '-' :: r => r
    | r => r
  match parseIntPart t with
  | none => none
  | some r1 =>
    match parseFracPart r1 with
    | none => none
    | some r2 => parseExpPart r2

mutual

/-- One JSON value starting at the head of the input (no leading
whitespace), returning it and the rest.  `fuel` bounds the nesting
recursion and is decremented on each nested value. -/
def parseValue : Nat → List Char → Option (JsonValue × List Char)
  | 0, _ => none
  | Nat.succ fuel, input =>
    match input with
    | 'n' :: 'u' :: 'l' :: 'l' :: rest => some (.null, rest)
    | 't' :: 'r' :: 'u' :: 'e' :: rest => some (.bool true, rest)
    | 'f' :: 'a' :: 'l' :: 's' :: 'e' :: rest => some (.bool false, rest)
    | '"' :: rest =>
      (parseStringBody rest).map (fun p => (.str (String.mk p.1), p.2))
    | '[' :: rest =>
      (match skipWs rest with
        | ']' :: rest2 => some (.arr [], rest2)
        | rest2 => (parseElems fuel rest2).map (fun p => (.arr p.1, p.2)))
    | '{' :: rest =>
      (match skipWs rest with
        | '}' :: rest2 => some (.obj [], rest2)
        | rest2 => (parseMembers fuel rest2).map (fun p => (.obj p.1, p.2)))
    | c :: _ =>
      if c = '-' || isDigit c then
        (parseNumber input).map (fun rest => (.num, rest))
      else none
    | [] => none

/-- The elements of a non-empty array, up to and including `]`. -/
def parseElems : Nat → List Char → Option (List JsonValue × List Char)
  | 0, _ => none
  | Nat.succ fuel, input =>
    match parseValue fuel input with
    | none => none
    | some (v, rest) =>
      match skipWs rest with
      | ',' :: rest2 => (parseElems fuel (skipWs rest2)).map (fun p => (v :: p.1, p.2))
      | ']' :: rest2 => some ([v], rest2)
      | _ => none

/-- The members of a non-empty object, up to and including `}`: each is a
string key, `:`, and a value. -/
def parseMembers : Nat → List Char → Option (List (String × JsonValue) × List Char)
  | 0, _ => none
  | Nat.succ fuel, input =>
    match input with
    | '"' :: rest =>
      (match parseStringBody rest with
        | none => none
        | some (key, rest1) =>
          match skipWs rest1 with
          | ':' :: rest2 =>
            (match parseValue fuel (skipWs rest2) with
              | none => none
              | some (v, rest3) =>
                match skipWs rest3 with
                | ',' :: rest4 =>
                  (parseMembers fuel (skipWs rest4)).map
                    (fun p => ((String.mk key, v) :: p.1, p.2))
                | '}' :: rest4 => some ([(String.mk key, v)], rest4)
                | _ => none)
          | _ => none)
    | _ => none

end

/-- Go `json.checkValid` plus the top-level decode: exactly one JSON value
surrounded by optional whitespace.  The fuel `2 * length + 2` bounds the
nesting recursion generously (the input must supply at least one character
per two fuel steps; Go itself caps nesting at 10000). -/
def parseTop (content : List Char) : Option JsonValue :=
  match parseValue (2 * content.length + 2) (skipWs content) with
  | some (v, rest) => if skipWs rest = [] then some v else none
  | none => none

/-- Decoding one JSON object member into a `map[string]string` element: a
string stores its text; `null` is ignored by `literalStore`, leaving the
freshly zeroed element, so the key is stored with the empty string;
anything else is a type error. -/
def decodeMapValue : JsonValue → Option String
  | .str s => some s
  | .null => some ""
  | _ => none

/-- Store the decoded members into the map in order (a later duplicate key
overwrites an earlier one); the first undecodable value aborts with an
error. -/
def unmarshalEntries : List (String × JsonValue) → Vault → Option Vault
  | [], m => some m
  | (k, j) :: rest, m =>
    match decodeMapValue j with
    | some s => unmarshalEntries rest (mapSet m k s)
    | none => none

/-- Go `json.Unmarshal(data, &m)` with `m` an empty `map[string]string`:
validate and parse, then decode — a top-level `null` zeroes the map (still
an empty mapping), a top-level object stores each member, anything else is
a type error. -/
def unmarshalMap (content : List Char) : Option Vault :=
  match parseTop content with
  | some .null => some []
  | some (.obj kvs) => unmarshalEntries kvs []
  | _ => none

/-- Lower-case hex digits, as Go's JSON encoder writes them. -/
def hexDigit (n : Nat) : Char :=
  "0123456789abcdef".data.getD n '0'

/-- One character of Go's JSON string encoder (`encodeState.string` with
HTML escaping on, as plain `json.Marshal` uses): quote and backslash get a
backslash escape, \n \r \t their short forms, other control characters
`\u00XX`, `<`, `>`, `&` are HTML-escaped as `<` `>` `&`,
U+2028 and U+2029 are escaped, and everything else is written verbatim. -/
def escapeChar (c : Char) : List Char :=
  if c = '"' then ['\\', '"']
  else if c = '\\' then ['\\', '\\']
  else if c = '\n' then ['\\', 'n']
  else if c = '\r' then ['\\', 'r']
  else if c = '\t' then ['\\', 't']
  else if c.toNat < 0x20 then ['\\', 'u', '0', '0', hexDigit (c.toNat / 16), hexDigit (c.toNat % 16)]
  else if c = '<' then ['\\', 'u', '0', '0', '3', 'c']
  else if c = '>' then ['\\', 'u', '0', '0', '3', 'e']
  else if c = '&' then ['\\', 'u', '0', '0', '2', '6']
  else if c = Char.ofNat 0x2028 then ['\\', 'u', '2', '0', '2', '8']
  else if c = Char.ofNat 0x2029 then ['\\', 'u', '2', '0', '2', '9']
  else [c]

/-- A JSON string literal for `s`, quotes included. -/
def encodeString (s : String) : List Char :=
  '"' :: (s.data.map escapeChar).flatten ++ ['"']

/-- One `"key":"value"` member of the marshalled object (the map encoder
writes the value stored under the key). -/
def renderMember (m : Vault) (k : String) : List Char :=
  encodeString k ++ ':' :: encodeString ((mapGet m k).getD "")

def commaJoin : List (List Char) → List Char
  | [] => []
  | [x] => x
  | x :: y :: xs => x ++ ',' :: commaJoin (y :: xs)

/-- Go `json.Marshal(vlt.vlt)`: the map encoder collects the keys, sorts them
ascending (the same sorted key list `lst` computes), and writes
`{"k":"v",...}` with no spaces. -/
def marshalVault (m : Vault) : List Char :=
  '{' :: commaJoin ((lst m).map (renderMember m)) ++ ['}']

/-! ### The backing file and the file-backed operations -/

/-- The backing file `portunus.json`: `none` when absent, otherwise its
text content. -/
structure FS where
  file : Option (List Char)
deriving DecidableEq

/-- Outcome of one OS-level write sequence, chosen by the environment: the
open may fail, the write may stop after `n` bytes, the close may fail after
a complete write, or everything succeeds. -/
inductive WriteOutcome where
  | success
  | openFail
  | writeFail (n : Nat)
  | closeFail
deriving DecidableEq

/-- Go `ioutil.WriteFile`: open with `O_WRONLY|O_CREATE|O_TRUNC` (truncating
any previous contents), write the data, close.  A failed open leaves the
file as it was; a write that stops after `n` bytes leaves the truncated
file holding only the first `n` bytes of the new data; a close failure is
reported after a complete write. -/
def writeFile (fs : FS) (data : List Char) (w : WriteOutcome) : Option VErr × FS :=
  match w with
  | .openFail => (some .ioError, fs)
  | .writeFail n => (some .ioError, ⟨some (data.take n)⟩)
  | .closeFail => (some .ioError, ⟨some data⟩)
  | .success => (none, ⟨some data⟩)

/-- Go `newVault`: create the backing file with `O_WRONLY|O_CREATE|O_EXCL` —
if it already exists the open fails with `os.ErrExist`, mapped to
`errVaultExists`, and the file is untouched — then write `"{}"`.  On a
write error Go returns both the fresh vault and the error; the deferred
`Close`'s error is discarded. -/
def newVault (fs : FS) (w : WriteOutcome) : Option Vault × Option VErr × FS :=
  match fs.file with
  | some _ => (none, some .vaultExists, fs)
  | none =>
    match w with
    | .openFail => (none, some .ioError, fs)
    | .writeFail n => (some [], some .ioError, ⟨some (['{', '}'].take n)⟩)
    | .closeFail => (some [], none, ⟨some ['{', '}']⟩)
    | .success => (some [], none, ⟨some ['{', '}']⟩)

/-- Go `openVault`: `ioutil.ReadFile` the backing file (absent →
`errVaultNotExists`, any other read failure → the I/O error), then
`json.Unmarshal` (failure → `errVaultInvalid`).  Total: every input yields
a value or a typed error. -/
def openVault (fs : FS) (readOk : Bool) : Except VErr Vault :=
  match fs.file with
  | none => .error .vaultNotExists
  | some content =>
    if readOk then
      match unmarshalMap content with
      | some m => .ok m
      | none => .error .vaultInvalid
    else .error .ioError

/-- Go `saveVault`: `json.Marshal` the mapping (the error result is discarded —
marshalling a `map[string]string` cannot fail) and `ioutil.WriteFile` it,
replacing the file's contents in full. -/
def saveVault (m : Vault) (fs : FS) (w : WriteOutcome) : Option VErr × FS :=
  writeFile fs (marshalVault m) w

/-- Spec wording for C2: content that "parses as a mapping from text to
text" — a JSON object all of whose member values are strings. -/
def parsesAsTextMapping (content : List Char) : Bool :=
  match parseTop content with
  | some (.obj kvs) => kvs.all (fun kv => match kv.2 with | .str _ => true | _ => false)
  | _ => false

/-- What `openVault` actually accepts: a top-level `null`, or an object
whose member values are all strings or nulls. -/
def acceptsAsVault (content : List Char) : Bool :=
  match parseTop content with
  | some .null => true
  | some (.obj kvs) => kvs.all (fun kv => (decodeMapValue kv.2).isSome)
  | _ => false

/-- Spec wording for C9: no entry's name is the empty string. -/
def NoEmptyNames (m : Vault) : Prop :=
  ∀ k ∈ mapKeys m, k ≠ ""

instance (m : Vault) : Decidable (NodupKeys m) :=
  inferInstanceAs (Decidable (mapKeys m).Nodup)

instance (m : Vault) : Decidable (NoEmptyNames m) :=
  inferInstanceAs (Decidable (∀ k ∈ mapKeys m, k ≠ ""))

/-! ## Lemmas about the map operations -/

theorem mapGet_mapSet_self (m : Vault) (k v : String) :
    mapGet (mapSet m k v) k = some v := by
  induction m with
  | nil => simp [mapSet, mapGet]
  | cons kv rest ih =>
    obtain ⟨k', v'⟩ := kv
    by_cases h : k' = k <;> simp [mapSet, mapGet, h, ih]

theorem mapGet_mapSet_ne (m : Vault) (k v : String) (k' : String) (h : k' ≠ k) :
    mapGet (mapSet m k v) k' = mapGet m k' := by
  have h' : ¬ k = k' := fun e => h e.symm
  induction m with
  | nil => simp [mapSet, mapGet, h']
  | cons kv rest ih =>
    obtain ⟨k₀, v₀⟩ := kv
    by_cases h₀ : k₀ = k
    · subst h₀
      simp [mapSet, mapGet, h']
    · by_cases h₁ : k₀ = k' <;> simp [mapSet, mapGet, h₀, h₁, ih, h]

theorem mapGet_eq_none_iff (m : Vault) (k : String) :
    mapGet m k = none ↔ k ∉ mapKeys m := by
  induction m with
  | nil => simp [mapGet, mapKeys]
  | cons kv rest ih =>
    obtain ⟨k', v'⟩ := kv
    by_cases h : k' = k
    · subst h
      simp [mapGet, mapKeys]
    · have e : mapGet ((k', v') :: rest) k = mapGet rest k := by simp [mapGet, h]
      have e2 : mapKeys ((k', v') :: rest) = k' :: mapKeys rest := by simp [mapKeys]
      rw [e, e2, ih]
      simp only [List.mem_cons, not_or]
      exact ⟨fun hn => ⟨fun hh => h hh.symm, hn⟩, fun hn => hn.2⟩

theorem mapGet_isSome_iff (m : Vault) (k : String) :
    (mapGet m k).isSome = true ↔ k ∈ mapKeys m := by
  rw [← Decidable.not_iff_not, ← mapGet_eq_none_iff]
  cases mapGet m k <;> simp

theorem mapKeys_mapSet (m : Vault) (k v : String) :
    mapKeys (mapSet m k v) = if k ∈ mapKeys m then mapKeys m else mapKeys m ++ [k] := by
  induction m with
  | nil => simp [mapSet, mapKeys]
  | cons kv rest ih =>
    obtain ⟨k', v'⟩ := kv
    by_cases h : k' = k
    · subst h
      simp [mapSet, mapKeys]
    · have e : mapSet ((k', v') :: rest) k v = (k', v') :: mapSet rest k v := by
        simp [mapSet, h]
      have e2 : mapKeys ((k', v') :: rest) = k' :: mapKeys rest := by simp [mapKeys]
      have e3 : mapKeys ((k', v') :: mapSet rest k v) = k' :: mapKeys (mapSet rest k v) := by
        simp [mapKeys]
      rw [e, e3, e2, ih]
      by_cases hm : k ∈ mapKeys rest
      · rw [if_pos hm, if_pos (List.mem_cons_of_mem _ hm)]
      · rw [if_neg hm, if_neg ?_]
        · simp
        · simp only [List.mem_cons, not_or]
          exact ⟨fun hh => h hh.symm, hm⟩

theorem nodupKeys_mapSet (m : Vault) (k v : String) (h : NodupKeys m) :
    NodupKeys (mapSet m k v) := by
  unfold NodupKeys at h ⊢
  rw [mapKeys_mapSet]
  by_cases hm : k ∈ mapKeys m
  · rwa [if_pos hm]
  · rw [if_neg hm]
    simp only [List.nodup_append, List.nodup_cons, List.nodup_nil]
    refine ⟨h, by simp, ?_⟩
    intro a ha hb
    simp only [List.mem_singleton] at hb
    subst hb
    exact hm ha

theorem mapGet_mapDelete_self (m : Vault) (k : String) :
    mapGet (mapDelete m k) k = none := by
  induction m with
  | nil => simp [mapDelete, mapGet]
  | cons kv rest ih =>
    obtain ⟨k', v'⟩ := kv
    by_cases h : k' = k
    · subst h
      simpa [mapDelete, List.filter_cons] using ih
    · have hb : (k' != k) = true := by simpa using h
      simpa [mapDelete, List.filter_cons, hb, mapGet, h] using ih

theorem mapGet_mapDelete_ne (m : Vault) (k k' : String) (h : k' ≠ k) :
    mapGet (mapDelete m k) k' = mapGet m k' := by
  have h' : ¬ k = k' := fun e => h e.symm
  induction m with
  | nil => simp [mapDelete, mapGet]
  | cons kv rest ih =>
    obtain ⟨k₀, v₀⟩ := kv
    by_cases h₀ : k₀ = k
    · subst h₀
      simpa [mapDelete, List.filter_cons, mapGet, h'] using ih
    · have hb : (k₀ != k) = true := by simpa using h₀
      by_cases h₁ : k₀ = k'
      · simp [mapDelete, List.filter_cons, hb, mapGet, h₁, h]
      · simpa [mapDelete, List.filter_cons, hb, mapGet, h₁] using ih

theorem nodupKeys_mapDelete (m : Vault) (k : String) (h : NodupKeys m) :
    NodupKeys (mapDelete m k) := by
  unfold NodupKeys mapKeys at h ⊢
  exact h.sublist ((List.filter_sublist m).map Prod.fst)

/-! ## The string order: the Bool comparator agrees with `≤` -/

theorem charListLtb_iff : ∀ as bs : List Char, charListLtb as bs = true ↔ List.lt as bs
  | [], [] => by
    constructor
    · intro h
      simp [charListLtb] at h
    · intro h
      cases h
  | [], b :: bs => by
    constructor
    · intro _
      exact List.lt.nil b bs
    · intro _
      rfl
  | a :: as, [] => by
    constructor
    · intro h
      simp [charListLtb] at h
    · intro h
      cases h
  | a :: as, b :: bs => by
    by_cases hab : a < b
    · constructor
      · intro _
        exact List.lt.head as bs hab
      · intro _
        simp [charListLtb, hab]
    · by_cases hba : b < a
      · constructor
        · intro h
          simp [charListLtb, hab, hba] at h
        · intro h
          cases h with
          | head _ _ h1 => exact absurd h1 hab
          | tail h1 h2 h3 => exact absurd hba h2
      · have ih := charListLtb_iff as bs
        constructor
        · intro h
          refine List.lt.tail hab hba (ih.1 ?_)
          simpa [charListLtb, hab, hba] using h
        · intro h
          cases h with
          | head _ _ h1 => exact absurd h1 hab
          | tail h1 h2 h3 =>
            simpa [charListLtb, hab, hba] using ih.2 h3

theorem strLtb_iff (a b : String) : strLtb a b = true ↔ a < b := by
  rw [strLtb, charListLtb_iff, List.lt_iff_lex_lt]
  exact (@String.lt_iff_toList_lt a b).symm

theorem strLeb_iff (a b : String) : strLeb a b = true ↔ a ≤ b := by
  constructor
  · intro h
    refine not_lt.1 (fun hlt => ?_)
    have hx := (strLtb_iff b a).2 hlt
    rw [strLeb, hx] at h
    exact absurd h (by decide)
  · intro h
    rw [strLeb]
    cases hx : strLtb b a
    · rfl
    · exact absurd ((strLtb_iff b a).1 hx) (not_lt.2 h)

instance : IsTotal String (fun a b => strLeb a b = true) :=
  ⟨fun a b => by
    rcases le_total a b with h | h
    · exact Or.inl ((strLeb_iff a b).2 h)
    · exact Or.inr ((strLeb_iff b a).2 h)⟩

instance : IsTrans String (fun a b => strLeb a b = true) :=
  ⟨fun a b c hab hbc =>
    (strLeb_iff a c).2 (le_trans ((strLeb_iff a b).1 hab) ((strLeb_iff b c).1 hbc))⟩

instance : IsAntisymm String (fun a b => strLeb a b = true) :=
  ⟨fun a b hab hba => le_antisymm ((strLeb_iff a b).1 hab) ((strLeb_iff b a).1 hba)⟩

/-! ## Lemmas about `lst` -/

theorem lst_sorted (m : Vault) : (lst m).Sorted (fun a b => strLeb a b = true) :=
  List.sorted_insertionSort _ _

theorem lst_sorted_le (m : Vault) : (lst m).Sorted (fun a b : String => a ≤ b) :=
  (lst_sorted m).imp (fun h => (strLeb_iff _ _).1 h)

theorem lst_perm (m : Vault) : List.Perm (lst m) (mapKeys m) :=
  List.perm_insertionSort _ _

theorem mem_lst (m : Vault) (k : String) : k ∈ lst m ↔ k ∈ mapKeys m :=
  (lst_perm m).mem_iff

theorem lst_eq_of_keys_perm (v₁ v₂ : Vault) (h : List.Perm (mapKeys v₁) (mapKeys v₂)) :
    lst v₁ = lst v₂ :=
  List.eq_of_perm_of_sorted ((lst_perm v₁).trans (h.trans (lst_perm v₂).symm))
    (lst_sorted v₁) (lst_sorted v₂)

theorem mapKeys_perm_of_same_get (v₁ v₂ : Vault) (h₁ : NodupKeys v₁)
    (h₂ : NodupKeys v₂) (h : ∀ k, mapGet v₁ k = mapGet v₂ k) :
    List.Perm (mapKeys v₁) (mapKeys v₂) := by
  refine (List.perm_ext_iff_of_nodup h₁ h₂).2 ?_
  intro a
  rw [← mapGet_isSome_iff, ← mapGet_isSome_iff, h]

theorem lst_nodup (m : Vault) (h : NodupKeys m) : (lst m).Nodup :=
  (lst_perm m).nodup_iff.2 h

/-! ## Lemmas about base64 encoding -/

theorem rawUrlEncode_length : ∀ bs : List Nat,
    (rawUrlEncode bs).length = bs.length + (bs.length + 2) / 3
  | [] => by simp [rawUrlEncode]
  | [b1] => by simp [rawUrlEncode]
  | [b1, b2] => by simp [rawUrlEncode]
  | b1 :: b2 :: b3 :: rest => by
    have ih := rawUrlEncode_length rest
    simp only [rawUrlEncode, List.length_cons, ih]
    omega

theorem b64Char_mem (n : Nat) : isUrlSafeB64Char (b64Char n) = true := by
  by_cases h : n < 64
  · have hall : ∀ i : Fin 64, isUrlSafeB64Char (b64Char i.val) = true := by decide
    exact hall ⟨n, h⟩
  · have hlen : b64Alphabet.length = 64 := by decide
    unfold b64Char
    rw [List.getD_eq_default]
    · decide
    · omega

theorem rawUrlEncode_chars : ∀ (bs : List Nat) (c : Char),
    c ∈ rawUrlEncode bs → isUrlSafeB64Char c = true
  | [], c => by simp [rawUrlEncode]
  | [b1], c => by
    intro hc
    simp only [rawUrlEncode, List.mem_cons, List.not_mem_nil, or_false] at hc
    rcases hc with rfl | rfl <;> exact b64Char_mem _
  | [b1, b2], c => by
    intro hc
    simp only [rawUrlEncode, List.mem_cons, List.not_mem_nil, or_false] at hc
    rcases hc with rfl | rfl | rfl <;> exact b64Char_mem _
  | b1 :: b2 :: b3 :: b4 :: rest, c => by
    intro hc
    simp only [rawUrlEncode, List.mem_cons] at hc
    rcases hc with rfl | rfl | rfl | rfl | hc
    · exact b64Char_mem _
    · exact b64Char_mem _
    · exact b64Char_mem _
    · exact b64Char_mem _
    · exact rawUrlEncode_chars (b4 :: rest) c hc
  | [b1, b2, b3], c => by
    intro hc
    simp only [rawUrlEncode, List.mem_cons, List.not_mem_nil, or_false] at hc
    rcases hc with rfl | rfl | rfl | rfl <;> exact b64Char_mem _

theorem nodupKeys_unmarshalEntries : ∀ (kvs : List (String × JsonValue)) (m m' : Vault),
    unmarshalEntries kvs m = some m' → NodupKeys m → NodupKeys m'
  | [], m, m' => by
    intro h hm
    simp only [unmarshalEntries, Option.some.injEq] at h
    exact h ▸ hm
  | (k, j) :: rest, m, m' => by
    intro h hm
    simp only [unmarshalEntries] at h
    cases hd : decodeMapValue j with
    | none => rw [hd] at h; exact absurd h (by simp)
    | some s =>
      rw [hd] at h
      exact nodupKeys_unmarshalEntries rest _ m' h (nodupKeys_mapSet m k s hm)

/-! ## Claim C4: generated passwords are 16 URL-safe base64 characters -/

set_option linter.unusedVariables false in
/-- C4: for a buffer of 12 bytes from the random source, `generatePassword`
returns a 16-character string, every character drawn from the URL-safe
base64 alphabet `[A-Za-z0-9_-]`, and the string is exactly the padding-free
URL-safe base64 encoding of those 12 bytes. -/
theorem c4_generatePassword_sixteen_urlsafe (buf : List Nat)
    (hlen : buf.length = 12) (hbytes : ∀ b ∈ buf, b < 256) :
    (generatePassword buf false).length = 16 ∧
      (∀ c ∈ (generatePassword buf false).data, isUrlSafeB64Char c = true) ∧
      generatePassword buf false = String.mk (rawUrlEncode buf) := by
  refine ⟨?_, ?_, rfl⟩
  · have e : (generatePassword buf false).length = (rawUrlEncode buf).length := rfl
    rw [e, rawUrlEncode_length, hlen]
  · intro c hc
    have e : (generatePassword buf false).data = rawUrlEncode buf := rfl
    rw [e] at hc
    exact rawUrlEncode_chars buf c hc

/-- Witness for C4 at the all-zero buffer. -/
theorem c4_generatePassword_sixteen_urlsafe_witness :
    (generatePassword (List.replicate 12 0) false).length = 16 ∧
      (∀ c ∈ (generatePassword (List.replicate 12 0) false).data, isUrlSafeB64Char c = true) ∧
      generatePassword (List.replicate 12 0) false =
        String.mk (rawUrlEncode (List.replicate 12 0)) :=
  c4_generatePassword_sixteen_urlsafe (List.replicate 12 0) (by decide) (by decide)

/-! ## Claim C5: entropy failure handling -/

/-- C5 (code bug): the code calls `rand.Read(pswd)` and throws BOTH results
away, so an entropy-source failure is NOT fatal: with the read having failed
after filling 0 of 12 bytes (the buffer still all zero), `generatePassword`
returns normally with the encoding of the zeroed buffer — and in general the
result never depends on whether the read failed. -/
theorem c5_generatePassword_ignores_entropy_failure :
    generatePassword (List.replicate 12 0) true = "AAAAAAAAAAAAAAAA" ∧
      ∀ (buf : List Nat) (failed : Bool),
        generatePassword buf failed = generatePassword buf false :=
  ⟨by decide, fun _ _ => rfl⟩

/-! ## Claim C6: get/remove error semantics -/

/-- C6: `get` and `rem` fail with `errVaultNoSuchValue` exactly when the
name is absent; a failing `rem` returns the mapping unchanged (and `get`
never changes it — it is a pure read by construction); a successful `rem`
removes exactly the named entry and no other. -/
theorem c6_get_rem_entryNotFound (m : Vault) (name : String) :
    (get m name = .error .noSuchValue ↔ name ∉ mapKeys m) ∧
    ((rem m name).1 = some .noSuchValue ↔ name ∉ mapKeys m) ∧
    (name ∉ mapKeys m → rem m name = (some .noSuchValue, m)) ∧
    (name ∈ mapKeys m →
      (rem m name).1 = none ∧
      mapGet (rem m name).2 name = none ∧
      ∀ k, k ≠ name → mapGet (rem m name).2 k = mapGet m k) := by
  refine ⟨?_, ?_, ?_, ?_⟩
  · rw [← mapGet_eq_none_iff]
    unfold get
    cases mapGet m name <;> simp
  · rw [← mapGet_eq_none_iff]
    unfold rem
    cases mapGet m name <;> simp
  · rw [← mapGet_eq_none_iff]
    intro h
    unfold rem
    rw [h]
  · intro h
    rw [← mapGet_isSome_iff] at h
    unfold rem
    cases hg : mapGet m name with
    | none => rw [hg] at h; simp at h
    | some v =>
      refine ⟨rfl, mapGet_mapDelete_self m name, ?_⟩
      intro k hk
      exact mapGet_mapDelete_ne m name k hk

/-- Witness for C6: removing "a" from a two-entry vault keeps "b". -/
theorem c6_get_rem_entryNotFound_witness :
    mapGet (rem [("a", "1"), ("b", "2")] "a").2 "a" = none ∧
      mapGet (rem [("a", "1"), ("b", "2")] "a").2 "b" = some "2" ∧
      rem [("a", "1"), ("b", "2")] "c" = (some .noSuchValue, [("a", "1"), ("b", "2")]) := by
  have h := c6_get_rem_entryNotFound [("a", "1"), ("b", "2")] "a"
  have h2 := c6_get_rem_entryNotFound [("a", "1"), ("b", "2")] "c"
  refine ⟨(h.2.2.2 (by decide)).2.1, ?_, h2.2.2.1 (by decide)⟩
  rw [(h.2.2.2 (by decide)).2.2 "b" (by decide)]
  decide

/-! ## Claim C7: `lst` is the sorted name list -/

/-- C7: `lst` returns exactly the entry names, in ascending lexicographic
order, and is determined by the key collection alone — any two vaults whose
key lists are permutations of each other (in particular, the same entries
in any storage order) produce the same output.  It is a pure function of
the vault, which it does not modify. -/
theorem c7_lst_sorted_names (m : Vault) :
    (lst m).Sorted (fun a b : String => a ≤ b) ∧
    (∀ k, k ∈ lst m ↔ k ∈ mapKeys m) ∧
    (∀ m₂ : Vault, List.Perm (mapKeys m) (mapKeys m₂) → lst m = lst m₂) :=
  ⟨lst_sorted_le m, fun k => mem_lst m k, fun m₂ h => lst_eq_of_keys_perm m m₂ h⟩

/-- Witness for C7: the spec's `zeta`/`alpha`/`mike` example, inserted in
two different orders. -/
theorem c7_lst_sorted_names_witness :
    lst [("zeta", "1"), ("alpha", "2"), ("mike", "3")] =
        lst [("mike", "3"), ("alpha", "2"), ("zeta", "1")] ∧
      lst [("zeta", "1"), ("alpha", "2"), ("mike", "3")] = ["alpha", "mike", "zeta"] :=
  ⟨(c7_lst_sorted_names [("zeta", "1"), ("alpha", "2"), ("mike", "3")]).2.2
      [("mike", "3"), ("alpha", "2"), ("zeta", "1")] (by decide),
    by decide⟩

/-! ## Claim C9: name validation -/

/-- C9 is false as stated: no operation validates names, so `set` with the
empty string as name stores an entry whose name is the empty string —
starting from a vault with no empty name, the "no empty names" invariant is
not preserved. -/
theorem c9_empty_name_counterexample :
    NoEmptyNames ([] : Vault) ∧ ¬ NoEmptyNames (set [] "" "v") ∧
      mapGet (set [] "" "v") "" = some "v" := by
  refine ⟨?_, ?_, by decide⟩
  · intro k hk
    simp [mapKeys] at hk
  · intro h
    exact h "" (by decide) rfl

/-- C9 amended: the operations impose no constraint on names (empty ones
included); the invariant they all do preserve is uniqueness of names:
`set`, `new` and `rem` keep keys duplicate-free, and `newVault` and
`openVault` only produce duplicate-free mappings. -/
theorem c9_ops_preserve_unique_names :
    (∀ (m : Vault) (n v : String), NodupKeys m → NodupKeys (set m n v)) ∧
    (∀ (m : Vault) (n : String) (buf : List Nat) (b : Bool),
      NodupKeys m → NodupKeys (new m n buf b)) ∧
    (∀ (m : Vault) (n : String), NodupKeys m → NodupKeys (rem m n).2) ∧
    (∀ (fs : FS) (w : WriteOutcome) (v : Vault) (e : Option VErr) (fs2 : FS),
      newVault fs w = (some v, e, fs2) → NodupKeys v) ∧
    (∀ (fs : FS) (r : Bool) (v : Vault), openVault fs r = .ok v → NodupKeys v) := by
  refine ⟨?_, ?_, ?_, ?_, ?_⟩
  · exact fun m n v h => nodupKeys_mapSet m n v h
  · exact fun m n buf b h => nodupKeys_mapSet m n _ h
  · intro m n h
    unfold rem
    cases mapGet m n with
    | none => exact h
    | some v => exact nodupKeys_mapDelete m n h
  · intro fs w v e fs2 h
    unfold newVault at h
    cases hf : fs.file with
    | some c => rw [hf] at h; simp at h
    | none =>
      rw [hf] at h
      cases w <;> simp_all <;> exact List.nodup_nil
  · intro fs r v h
    unfold openVault at h
    cases hf : fs.file with
    | none => rw [hf] at h; simp at h
    | some c =>
      rw [hf] at h
      cases r with
      | false => simp at h
      | true =>
        simp only [if_true] at h
        cases hu : unmarshalMap c with
        | none => rw [hu] at h; simp at h
        | some m =>
          rw [hu] at h
          simp only [Except.ok.injEq] at h
          subst h
          unfold unmarshalMap at hu
          cases hp : parseTop c with
          | none => rw [hp] at hu; simp at hu
          | some j =>
            rw [hp] at hu
            cases j with
            | null => simp only [Option.some.injEq] at hu; exact hu ▸ List.nodup_nil
            | obj kvs => exact nodupKeys_unmarshalEntries kvs [] m hu List.nodup_nil
            | bool b => simp at hu
            | num => simp at hu
            | str s => simp at hu
            | arr xs => simp at hu

/-- Witness for C9's amended statement at concrete inputs. -/
theorem c9_ops_preserve_unique_names_witness :
    NodupKeys (set [("a", "1")] "b" "2") ∧ NodupKeys (rem [("a", "1")] "a").2 :=
  ⟨c9_ops_preserve_unique_names.1 [("a", "1")] "b" "2" (by decide),
    c9_ops_preserve_unique_names.2.2.1 [("a", "1")] "a" (by decide)⟩

/-! ## The JSON round trip: parsing what `marshalVault` writes -/

theorem hexVal_hexDigit (n : Nat) (h : n < 16) : hexVal (hexDigit n) = some n := by
  have hall : ∀ i : Fin 16, hexVal (hexDigit i.val) = some i.val := by decide
  exact hall ⟨n, h⟩

theorem skipWs_cons (c : Char) (t : List Char) (h : isJsonSpace c = false) :
    skipWs (c :: t) = c :: t := by
  simp [skipWs, List.dropWhile_cons, h]

/-- Parsing a `\u00XX` escape of a control character. -/
theorem parse_u00 (c : Char) (hc : c.toNat < 32) (fuel : Nat) (rest : List Char) :
    parseStringFuel (Nat.succ fuel)
        ('\\' :: 'u' :: '0' :: '0' :: hexDigit (c.toNat / 16) :: hexDigit (c.toNat % 16) :: rest) =
      (parseStringFuel fuel rest).map (fun p => (c :: p.1, p.2)) := by
  have hdiv : c.toNat / 16 < 16 := by omega
  have hmod : c.toNat % 16 < 16 := by omega
  have h0 : hexVal '0' = some 0 := by decide
  simp only [parseStringFuel, h0, hexVal_hexDigit _ hdiv, hexVal_hexDigit _ hmod]
  have hn : ((0 * 16 + 0) * 16 + c.toNat / 16) * 16 + c.toNat % 16 = c.toNat := by omega
  rw [hn]
  rw [if_pos (Or.inl (by omega))]
  rw [Char.ofNat_toNat]

/-- One encoded character parses back to itself (consuming one fuel step). -/
theorem escapeChar_parse (c : Char) (fuel : Nat) (rest : List Char) :
    parseStringFuel (Nat.succ fuel) (escapeChar c ++ rest) =
      (parseStringFuel fuel rest).map (fun p => (c :: p.1, p.2)) := by
  unfold escapeChar
  by_cases hq : c = '"'
  · subst hq
    simp [parseStringFuel]
  by_cases hbs : c = '\\'
  · subst hbs
    simp [parseStringFuel]
  by_cases hn : c = '\n'
  · subst hn
    simp [parseStringFuel]
  by_cases hr : c = '\r'
  · subst hr
    simp [parseStringFuel]
  by_cases ht : c = '\t'
  · subst ht
    simp [parseStringFuel]
  by_cases hctl : c.toNat < 0x20
  · simp only [if_neg hq, if_neg hbs, if_neg hn, if_neg hr, if_neg ht, if_pos hctl,
      List.cons_append, List.nil_append]
    exact parse_u00 c hctl fuel rest
  by_cases hlt : c = '<'
  · subst hlt
    simp [parseStringFuel, hexVal]
  by_cases hgt : c = '>'
  · subst hgt
    simp [parseStringFuel, hexVal]
  by_cases hamp : c = '&'
  · subst hamp
    simp [parseStringFuel, hexVal]
  by_cases h28 : c = Char.ofNat 0x2028
  · subst h28
    simp [parseStringFuel, hexVal]
  by_cases h29 : c = Char.ofNat 0x2029
  · subst h29
    simp [parseStringFuel, hexVal]
  · simp only [if_neg hq, if_neg hbs, if_neg hn, if_neg hr, if_neg ht, if_neg hctl,
      if_neg hlt, if_neg hgt, if_neg hamp, if_neg h28, if_neg h29,
      List.cons_append, List.nil_append]
    rw [parseStringFuel.eq_def]
    split
    all_goals simp_all

theorem string_mk_data (s : String) : String.mk s.data = s := rfl

/-- The escaped body of a string, followed by the closing quote, parses back
to the original characters, given fuel for each character plus the quote. -/
theorem encodeBody_parseF : ∀ (cs : List Char) (fuel : Nat) (rest : List Char),
    cs.length + 1 ≤ fuel →
    parseStringFuel fuel ((cs.map escapeChar).flatten ++ '"' :: rest) = some (cs, rest)
  | [], fuel, rest, h => by
    obtain ⟨f, rfl⟩ : ∃ f, fuel = Nat.succ f := ⟨fuel - 1, by omega⟩
    simp [parseStringFuel]
  | c :: cs, fuel, rest, h => by
    obtain ⟨f, rfl⟩ : ∃ f, fuel = Nat.succ f := ⟨fuel - 1, by omega⟩
    have ih := encodeBody_parseF cs f rest (by simp only [List.length_cons] at h; omega)
    simp only [List.map_cons, List.flatten_cons, List.append_assoc]
    rw [escapeChar_parse, ih]
    rfl

theorem escapeChar_length_pos (c : Char) : 1 ≤ (escapeChar c).length := by
  unfold escapeChar
  by_cases h1 : c = '"'
  · rw [if_pos h1]; decide
  rw [if_neg h1]
  by_cases h2 : c = '\\'
  · rw [if_pos h2]; decide
  rw [if_neg h2]
  by_cases h3 : c = '\n'
  · rw [if_pos h3]; decide
  rw [if_neg h3]
  by_cases h4 : c = '\r'
  · rw [if_pos h4]; decide
  rw [if_neg h4]
  by_cases h5 : c = '\t'
  · rw [if_pos h5]; decide
  rw [if_neg h5]
  by_cases h6 : c.toNat < 32
  · rw [if_pos h6]
    simp only [List.length_cons, List.length_nil]
    omega
  rw [if_neg h6]
  by_cases h7 : c = '<'
  · rw [if_pos h7]; decide
  rw [if_neg h7]
  by_cases h8 : c = '>'
  · rw [if_pos h8]; decide
  rw [if_neg h8]
  by_cases h9 : c = '&'
  · rw [if_pos h9]; decide
  rw [if_neg h9]
  by_cases h10 : c = Char.ofNat 0x2028
  · rw [if_pos h10]; decide
  rw [if_neg h10]
  by_cases h11 : c = Char.ofNat 0x2029
  · rw [if_pos h11]; decide
  rw [if_neg h11]
  simp only [List.length_cons, List.length_nil]
  omega

theorem flatten_escape_length_ge : ∀ cs : List Char,
    cs.length ≤ ((cs.map escapeChar).flatten).length
  | [] => by simp
  | c :: cs => by
    have h1 := flatten_escape_length_ge cs
    have h2 := escapeChar_length_pos c
    simp only [List.map_cons, List.flatten_cons, List.length_append, List.length_cons]
    omega

/-- The escaped body of a string, followed by the closing quote, parses back
to the original characters. -/
theorem encodeBody_parse (cs : List Char) (rest : List Char) :
    parseStringBody ((cs.map escapeChar).flatten ++ '"' :: rest) = some (cs, rest) := by
  unfold parseStringBody
  refine encodeBody_parseF cs _ rest ?_
  have := flatten_escape_length_ge cs
  simp only [List.length_append, List.length_cons]
  omega

/-- A marshalled string literal parses as a JSON string value. -/
theorem parseValue_encodeString (fuel : Nat) (s : String) (rest : List Char) :
    parseValue (Nat.succ fuel) (encodeString s ++ rest) = some (.str s, rest) := by
  have e : encodeString s ++ rest =
      '"' :: ((s.data.map escapeChar).flatten ++ '"' :: rest) := by
    simp [encodeString]
  rw [e]
  simp only [parseValue]
  rw [encodeBody_parse]
  simp [string_mk_data]

theorem skipWs_colon (t : List Char) : skipWs (':' :: t) = ':' :: t :=
  skipWs_cons _ _ (by decide)

theorem skipWs_quote (t : List Char) : skipWs ('"' :: t) = '"' :: t :=
  skipWs_cons _ _ (by decide)

theorem skipWs_comma (t : List Char) : skipWs (',' :: t) = ',' :: t :=
  skipWs_cons _ _ (by decide)

theorem skipWs_rbrace (t : List Char) : skipWs ('}' :: t) = '}' :: t :=
  skipWs_cons _ _ (by decide)

/-- One `"key":"value"` member, fully unfolded to character level. -/
theorem renderMember_shape (m : Vault) (k : String) (X : List Char) :
    renderMember m k ++ X =
      '"' :: ((k.data.map escapeChar).flatten ++ '"' :: ':' :: '"' ::
        ((((mapGet m k).getD "").data.map escapeChar).flatten ++ '"' :: X)) := by
  simp [renderMember, encodeString]

/-- The marshalled members of a non-empty object parse back to the
member list, pairing each key with its stored value. -/
theorem parseMembers_marshal : ∀ (ks' : List String) (k : String) (m : Vault) (fuel : Nat)
    (rest : List Char), ks'.length + 2 ≤ fuel →
    parseMembers fuel (commaJoin ((k :: ks').map (renderMember m)) ++ '}' :: rest) =
      some ((k :: ks').map (fun x => (x, JsonValue.str ((mapGet m x).getD ""))), rest)
  | [], k, m, fuel, rest, h => by
    obtain ⟨f2, rfl⟩ : ∃ f2, fuel = Nat.succ (Nat.succ f2) := ⟨fuel - 2, by omega⟩
    simp only [List.map_cons, List.map_nil, commaJoin]
    rw [renderMember_shape]
    simp only [parseMembers, encodeBody_parse, skipWs_colon, skipWs_quote, skipWs_rbrace,
      parseValue, string_mk_data, Option.map_some, Option.map_some']
  | k2 :: ks'', k, m, fuel, rest, h => by
    obtain ⟨f2, rfl⟩ : ∃ f2, fuel = Nat.succ (Nat.succ f2) := ⟨fuel - 2, by omega⟩
    have ih := parseMembers_marshal ks'' k2 m (Nat.succ f2) rest
      (by simp only [List.length_cons] at h; omega)
    have harr : commaJoin ((k :: k2 :: ks'').map (renderMember m)) ++ '}' :: rest =
        renderMember m k ++
          (',' :: (commaJoin ((k2 :: ks'').map (renderMember m)) ++ '}' :: rest)) := by
      simp [commaJoin, List.append_assoc]
    rw [harr, renderMember_shape]
    obtain ⟨T, hT⟩ : ∃ T, commaJoin ((k2 :: ks'').map (renderMember m)) ++ '}' :: rest =
        renderMember m k2 ++ T := by
      cases ks'' with
      | nil => exact ⟨'}' :: rest, by simp [commaJoin]⟩
      | cons a l =>
        exact ⟨',' :: (commaJoin ((a :: l).map (renderMember m)) ++ '}' :: rest),
          by simp [commaJoin, List.append_assoc]⟩
    have hsk : skipWs (commaJoin ((k2 :: ks'').map (renderMember m)) ++ '}' :: rest) =
        commaJoin ((k2 :: ks'').map (renderMember m)) ++ '}' :: rest := by
      rw [hT, renderMember_shape, skipWs_quote, ← renderMember_shape, ← hT]
    rw [parseMembers.eq_def]
    simp only [encodeBody_parse, skipWs_colon, skipWs_quote, skipWs_comma,
      parseValue, string_mk_data, Option.map_some, Option.map_some']
    rw [hsk, ih]
    simp

/-- Each member contributes at least one character, so the joined members
bound the member count. -/
theorem commaJoin_length_ge : ∀ (ks : List String) (m : Vault),
    ks.length ≤ (commaJoin (ks.map (renderMember m))).length + 1
  | [], m => by simp [commaJoin]
  | [k], m => by simp [commaJoin]
  | k :: k2 :: ks, m => by
    have ih := commaJoin_length_ge (k2 :: ks) m
    simp only [List.map_cons, commaJoin, List.length_append, List.length_cons] at *
    omega

theorem marshalVault_length_ge (v : Vault) :
    (lst v).length ≤ (marshalVault v).length := by
  have h := commaJoin_length_ge (lst v) v
  simp only [marshalVault, List.length_cons, List.length_append] at *
  omega

/-- The marshalled vault parses as the JSON object whose members are the
sorted keys with their stored values. -/
theorem parseValue_marshalVault (v : Vault) (fuel : Nat) (rest : List Char)
    (h : (lst v).length + 2 ≤ fuel) :
    parseValue fuel (marshalVault v ++ rest) =
      some (.obj ((lst v).map (fun k => (k, JsonValue.str ((mapGet v k).getD "")))), rest) := by
  obtain ⟨f, rfl⟩ : ∃ f, fuel = Nat.succ f := ⟨fuel - 1, by omega⟩
  have e : marshalVault v ++ rest =
      '{' :: (commaJoin ((lst v).map (renderMember v)) ++ '}' :: rest) := by
    simp [marshalVault, List.append_assoc]
  rw [e]
  cases hks : lst v with
  | nil =>
    simp only [List.map_nil, commaJoin, List.nil_append]
    simp only [parseValue, skipWs_rbrace]
  | cons k ks' =>
    obtain ⟨T, hT⟩ : ∃ T, commaJoin ((k :: ks').map (renderMember v)) ++ '}' :: rest =
        renderMember v k ++ T := by
      cases ks' with
      | nil => exact ⟨'}' :: rest, by simp [commaJoin]⟩
      | cons a l =>
        exact ⟨',' :: (commaJoin ((a :: l).map (renderMember v)) ++ '}' :: rest),
          by simp [commaJoin, List.append_assoc]⟩
    have hsk : skipWs (commaJoin ((k :: ks').map (renderMember v)) ++ '}' :: rest) =
        commaJoin ((k :: ks').map (renderMember v)) ++ '}' :: rest := by
      rw [hT, renderMember_shape, skipWs_quote, ← renderMember_shape, ← hT]
    have harm : parseMembers f (commaJoin ((k :: ks').map (renderMember v)) ++ '}' :: rest) =
        some ((k :: ks').map (fun x => (x, JsonValue.str ((mapGet v x).getD ""))), rest) := by
      refine parseMembers_marshal ks' k v f rest ?_
      rw [hks] at h
      simp only [List.length_cons] at h
      omega
    simp only [parseValue]
    rw [hsk, hT, renderMember_shape]
    split
    · simp_all
    · rw [← renderMember_shape, ← hT, harm]
      rfl

theorem parseTop_marshalVault (v : Vault) :
    parseTop (marshalVault v) =
      some (.obj ((lst v).map (fun k => (k, JsonValue.str ((mapGet v k).getD ""))))) := by
  unfold parseTop
  have hsk : skipWs (marshalVault v) = marshalVault v := by
    have e : marshalVault v = '{' :: (commaJoin ((lst v).map (renderMember v)) ++ ['}']) := by
      simp [marshalVault]
    rw [e, skipWs_cons _ _ (by decide), ← e]
  rw [hsk]
  have hlen : (lst v).length + 2 ≤ 2 * (marshalVault v).length + 2 := by
    have := marshalVault_length_ge v
    omega
  have hpv := parseValue_marshalVault v (2 * (marshalVault v).length + 2) [] hlen
  rw [List.append_nil] at hpv
  rw [hpv]
  simp [skipWs]

/-- Decoding a member list that is all strings stores each member in order. -/
theorem unmarshalEntries_strs : ∀ (ps : List (String × String)) (m : Vault),
    unmarshalEntries (ps.map (fun p => (p.1, JsonValue.str p.2))) m =
      some (ps.foldl (fun acc p => mapSet acc p.1 p.2) m)
  | [], m => by simp [unmarshalEntries]
  | p :: ps, m => by
    have ih := unmarshalEntries_strs ps (mapSet m p.1 p.2)
    simp [unmarshalEntries, decodeMapValue, ih]

/-- Looking up in the map built by storing duplicate-free pairs: the pairs
win over the initial map. -/
theorem mapGet_foldl_mapSet : ∀ (ps : List (String × String)) (m : Vault) (k : String),
    (ps.map Prod.fst).Nodup →
    mapGet (ps.foldl (fun acc p => mapSet acc p.1 p.2) m) k =
      (mapGet ps k).or (mapGet m k)
  | [], m, k => by simp [mapGet, Option.or]
  | p :: ps, m, k => by
    intro hnd
    simp only [List.map_cons, List.nodup_cons] at hnd
    have ih := mapGet_foldl_mapSet ps (mapSet m p.1 p.2) k hnd.2
    simp only [List.foldl_cons]
    rw [ih]
    by_cases hk : p.1 = k
    · subst hk
      have hnone : mapGet ps p.1 = none := by
        rw [mapGet_eq_none_iff]
        exact fun hm => hnd.1 hm
      rw [hnone, mapGet_mapSet_self]
      have : mapGet (p :: ps) p.1 = some p.2 := by
        obtain ⟨k', v'⟩ := p
        simp [mapGet]
      rw [this]
      simp [Option.or]
    · rw [mapGet_mapSet_ne m p.1 p.2 k (fun e => hk e.symm)]
      have : mapGet (p :: ps) k = mapGet ps k := by
        obtain ⟨k', v'⟩ := p
        simp only at hk
        simp [mapGet, hk]
      rw [this]

/-- Looking a key up in a tabulated association list. -/
theorem mapGet_tabulate : ∀ (ks : List String) (f : String → String) (k : String),
    mapGet (ks.map (fun x => (x, f x))) k = if k ∈ ks then some (f k) else none
  | [], f, k => by simp [mapGet]
  | x :: ks, f, k => by
    have ih := mapGet_tabulate ks f k
    by_cases hx : x = k
    · subst hx
      simp [mapGet]
    · simp only [List.map_cons, mapGet, if_neg hx, ih, List.mem_cons]
      have : ¬ k = x := fun e => hx e.symm
      simp [this]

/-- Round trip: unmarshalling a marshalled vault restores exactly the same
mapping (on any representation with unique keys). -/
theorem unmarshal_marshalVault (v : Vault) (h : NodupKeys v) :
    ∃ m, unmarshalMap (marshalVault v) = some m ∧ ∀ k, mapGet m k = mapGet v k := by
  have e : ((lst v).map (fun k => (k, JsonValue.str ((mapGet v k).getD "")))) =
      (((lst v).map (fun k => (k, (mapGet v k).getD ""))).map
        (fun p => (p.1, JsonValue.str p.2))) := by
    simp [List.map_map]
  simp only [unmarshalMap, parseTop_marshalVault]
  rw [e, unmarshalEntries_strs]
  refine ⟨_, rfl, ?_⟩
  intro k
  have hnd : ((((lst v).map (fun x => (x, (mapGet v x).getD ""))).map Prod.fst)).Nodup := by
    have : (((lst v).map (fun x => (x, (mapGet v x).getD ""))).map Prod.fst) = lst v := by
      simp only [List.map_map]
      exact List.map_id _
    rw [this]
    exact lst_nodup v h
  rw [mapGet_foldl_mapSet _ _ _ hnd, mapGet_tabulate]
  by_cases hk : k ∈ lst v
  · rw [if_pos hk]
    have hmem : k ∈ mapKeys v := (mem_lst v k).1 hk
    rw [← mapGet_isSome_iff] at hmem
    cases hval : mapGet v k with
    | none => rw [hval] at hmem; simp at hmem
    | some val => simp [hval, Option.or]
  · rw [if_neg hk]
    have hmem : k ∉ mapKeys v := fun hm => hk ((mem_lst v k).2 hm)
    simp [mapGet, Option.or]
    exact ((mapGet_eq_none_iff v k).2 hmem).symm

/-! ## Claim C1: set → save → open → get round trip -/

/-- C1: for any vault (with unique keys, as every reachable vault has), any
name and any value — the empty string included — setting the entry, saving
with a successful write, opening the saved file afresh and getting the name
returns exactly the value that was set. -/
theorem c1_set_save_open_get (v : Vault) (h : NodupKeys v) (n val : String) (fs : FS) :
    (saveVault (set v n val) fs .success).1 = none ∧
    ∃ m, openVault (saveVault (set v n val) fs .success).2 true = .ok m ∧
      get m n = .ok val := by
  have hnd : NodupKeys (set v n val) := nodupKeys_mapSet v n val h
  obtain ⟨m, hm, hget⟩ := unmarshal_marshalVault (set v n val) hnd
  refine ⟨rfl, m, ?_, ?_⟩
  · show openVault ⟨some (marshalVault (set v n val))⟩ true = .ok m
    unfold openVault
    simp only [if_true]
    rw [hm]
  · unfold get
    rw [hget n]
    unfold set
    rw [mapGet_mapSet_self]

/-- Witness for C1: the spec's concrete scenario, `set "email" "hunter2"`
on the empty vault (and an empty value on a non-empty vault). -/
theorem c1_set_save_open_get_witness :
    ((saveVault (set [] "email" "hunter2") ⟨none⟩ .success).1 = none ∧
      ∃ m, openVault (saveVault (set [] "email" "hunter2") ⟨none⟩ .success).2 true = .ok m ∧
        get m "email" = .ok "hunter2") ∧
    ((saveVault (set [("a", "1")] "" "") ⟨some ['X']⟩ .success).1 = none ∧
      ∃ m, openVault (saveVault (set [("a", "1")] "" "") ⟨some ['X']⟩ .success).2 true = .ok m ∧
        get m "" = .ok "") :=
  ⟨c1_set_save_open_get [] (by decide) "email" "hunter2" ⟨none⟩,
    c1_set_save_open_get [("a", "1")] (by decide) "" "" ⟨some ['X']⟩⟩

/-! ## Claim C10: marshalling is a deterministic function of the mapping -/

/-- C10: two vaults that hold the same mapping (whatever their storage
order) marshal to byte-identical file contents, and the entry names appear
in the written object in ascending lexicographic order. -/
theorem c10_marshalVault_deterministic (v₁ v₂ : Vault) (h₁ : NodupKeys v₁)
    (h₂ : NodupKeys v₂) (h : ∀ k, mapGet v₁ k = mapGet v₂ k) :
    marshalVault v₁ = marshalVault v₂ ∧
      (lst v₁).Sorted (fun a b : String => a ≤ b) := by
  have hperm := mapKeys_perm_of_same_get v₁ v₂ h₁ h₂ h
  have hl : lst v₁ = lst v₂ := lst_eq_of_keys_perm v₁ v₂ hperm
  have hr : renderMember v₁ = renderMember v₂ := by
    funext k
    unfold renderMember
    rw [h k]
  constructor
  · unfold marshalVault
    rw [hl, hr]
  · exact lst_sorted_le v₁

/-- Witness for C10: the same two entries stored in opposite orders
marshal identically. -/
theorem c10_marshalVault_deterministic_witness :
    marshalVault [("b", "2"), ("a", "1")] = marshalVault [("a", "1"), ("b", "2")] := by
  have h := c10_marshalVault_deterministic [("b", "2"), ("a", "1")] [("a", "1"), ("b", "2")]
    (by decide) (by decide) ?_
  · exact h.1
  · intro k
    by_cases h1 : "b" = k
    · by_cases h2 : "a" = k
      · exact absurd (h2.trans h1.symm) (by decide)
      · simp [mapGet, h1, h2]
    · by_cases h2 : "a" = k
      · simp [mapGet, h1, h2]
      · simp [mapGet, h1, h2]

/-! ## Claim C2: openVault's error taxonomy -/

theorem unmarshalEntries_isSome : ∀ (kvs : List (String × JsonValue)) (m : Vault),
    (unmarshalEntries kvs m).isSome = kvs.all (fun kv => (decodeMapValue kv.2).isSome)
  | [], m => by simp [unmarshalEntries]
  | (k, j) :: kvs, m => by
    cases hd : decodeMapValue j with
    | none => simp [unmarshalEntries, hd]
    | some s =>
      simp [unmarshalEntries, hd, unmarshalEntries_isSome kvs (mapSet m k s)]

theorem unmarshalMap_isSome (content : List Char) :
    (unmarshalMap content).isSome = acceptsAsVault content := by
  unfold unmarshalMap acceptsAsVault
  cases parseTop content with
  | none => rfl
  | some j => cases j <;> simp [unmarshalEntries_isSome]

/-- C2 is false as stated: an object with a `null` member value — literally
the claim's example of "an object with a non-string value" — opens
successfully (Go's decoder leaves the freshly zeroed string element, storing
`""` under the key), and a bare `null` opens as the empty vault. -/
theorem c2_invalidFormat_counterexample :
    openVault ⟨some "\x7b\"a\":null\x7d".data⟩ true = .ok [("a", "")] ∧
      parsesAsTextMapping "\x7b\"a\":null\x7d".data = false ∧
      openVault ⟨some "null".data⟩ true = .ok [] ∧
      parsesAsTextMapping "null".data = false := by
  refine ⟨?_, ?_, ?_, ?_⟩ <;> decide

/-- C2 amended: with a readable file, `openVault` fails with
`errVaultNotExists` exactly when the file is absent, and with
`errVaultInvalid` exactly when the content is not accepted — accepted
content being a top-level JSON `null` (yielding the empty mapping) or a
JSON object whose member values are all strings or nulls (`null` members
decode to the empty string).  Content that parses as a string-to-string
object in the spec's sense is always accepted, and a success returns
exactly the unmarshalled mapping.  `openVault` never crashes: it is a total
function into a value or a typed error. -/
theorem c2_openVault_error_taxonomy (fs : FS) (content : List Char) :
    (openVault fs true = .error .vaultNotExists ↔ fs.file = none) ∧
    (openVault ⟨some content⟩ true = .error .vaultInvalid ↔
      acceptsAsVault content = false) ∧
    (∀ m, openVault ⟨some content⟩ true = .ok m ↔ unmarshalMap content = some m) ∧
    (parsesAsTextMapping content = true → acceptsAsVault content = true) := by
  refine ⟨?_, ?_, ?_, ?_⟩
  · cases hf : fs.file with
    | none => simp [openVault, hf]
    | some c =>
      simp only [openVault, hf, if_true]
      cases hu : unmarshalMap c <;> simp
  · have hi := unmarshalMap_isSome content
    cases hu : unmarshalMap content with
    | none =>
      rw [hu] at hi
      simp only [openVault, hu, if_true]
      simp [← hi]
    | some m =>
      rw [hu] at hi
      simp only [openVault, hu, if_true]
      simp [← hi]
  · intro m
    simp only [openVault, if_true]
    cases hu : unmarshalMap content <;> simp
  · intro h
    unfold parsesAsTextMapping at h
    unfold acceptsAsVault
    cases hp : parseTop content with
    | none => rw [hp] at h; simp at h
    | some j =>
      rw [hp] at h
      cases j with
      | obj kvs =>
        have h' : kvs.all
            (fun kv => (match kv.2 with | JsonValue.str _ => true | _ => false)) = true := h
        show kvs.all (fun kv => (decodeMapValue kv.2).isSome) = true
        simp only [List.all_eq_true] at h' ⊢
        intro kv hkv
        have hh := h' kv hkv
        cases hv : kv.2 <;> simp_all [decodeMapValue]
      | null => simp at h
      | bool b => simp at h
      | num => simp at h
      | str s => simp at h
      | arr xs => simp at h

/-- Witness for C2's amended statement: a well-formed one-entry object is
accepted and opens to exactly its unmarshalled mapping. -/
theorem c2_openVault_error_taxonomy_witness :
    openVault ⟨some "\x7b\"a\":\"b\"\x7d".data⟩ true = .ok [("a", "b")] ∧
      acceptsAsVault "\x7b\"a\":\"b\"\x7d".data = true :=
  ⟨((c2_openVault_error_taxonomy ⟨some "\x7b\"a\":\"b\"\x7d".data⟩ "\x7b\"a\":\"b\"\x7d".data).2.2.1
      [("a", "b")]).2 (by decide),
    (c2_openVault_error_taxonomy ⟨some "\x7b\"a\":\"b\"\x7d".data⟩ "\x7b\"a\":\"b\"\x7d".data).2.2.2
      (by decide)⟩

/-! ## Claim C3: createVault is exclusive -/

/-- C3: `newVault` creates the backing file exclusively.  When the file
already exists — whatever the environment would do to a write — the call
fails with `errVaultExists` and the file is returned untouched; when it does
not exist and the write succeeds, the file is created holding `{}` (the
serialization of the empty mapping, `marshalVault []`) and a fresh empty
in-memory vault is returned with no error. -/
theorem c3_newVault_exclusive (fs : FS) (w : WriteOutcome) :
    (∀ c, fs.file = some c → newVault fs w = (none, some .vaultExists, fs)) ∧
    (fs.file = none →
      newVault fs .success = (some [], none, ⟨some ['{', '}']⟩) ∧
      marshalVault [] = ['{', '}']) := by
  constructor
  · intro c hc
    unfold newVault
    rw [hc]
  · intro hn
    refine ⟨?_, by decide⟩
    unfold newVault
    rw [hn]

/-- Witness for C3: an existing file is untouched and reported; a missing
file is created as `{}`. -/
theorem c3_newVault_exclusive_witness :
    newVault ⟨some ['X']⟩ .success = (none, some .vaultExists, ⟨some ['X']⟩) ∧
      newVault ⟨none⟩ .success = (some [], none, ⟨some ['{', '}']⟩) :=
  ⟨(c3_newVault_exclusive ⟨some ['X']⟩ .success).1 ['X'] rfl,
    ((c3_newVault_exclusive ⟨none⟩ .success).2 rfl).1⟩

/-! ## Claim C8: what a failed save leaves behind -/

/-- C8 is false as stated: `ioutil.WriteFile` opens with `O_TRUNC` before
writing, so a write that fails after truncation has destroyed the previous
on-disk contents — here a save over a file holding "X" fails with an I/O
error yet leaves the file empty, not holding "X". -/
theorem c8_saveVault_failure_counterexample :
    (saveVault [("a", "x")] ⟨some ['X']⟩ (.writeFail 0)).1 = some .ioError ∧
      (saveVault [("a", "x")] ⟨some ['X']⟩ (.writeFail 0)).2 = ⟨some []⟩ ∧
      (⟨some []⟩ : FS) ≠ ⟨some ['X']⟩ := by
  refine ⟨?_, ?_, ?_⟩ <;> decide

/-- C8 amended: a failed save never touches the in-memory mapping (the
model's `saveVault` takes the vault purely and returns only an error and
the new file state, mirroring that the Go code never writes `vlt.vlt`).
On disk: if the open fails the contents are unchanged, but a write failure
after `n` characters leaves the truncated file holding only the first `n`
characters of the NEW serialization, and a close failure is reported even
though the new contents were fully written. -/
theorem c8_saveVault_failure_semantics (v : Vault) (fs : FS) :
    saveVault v fs .openFail = (some .ioError, fs) ∧
    (∀ n, saveVault v fs (.writeFail n) =
      (some .ioError, ⟨some ((marshalVault v).take n)⟩)) ∧
    saveVault v fs .closeFail = (some .ioError, ⟨some (marshalVault v)⟩) :=
  ⟨rfl, fun _ => rfl, rfl⟩

end Portunus
